import Mathlib

set_option maxRecDepth 100000

namespace Acmon

/-! # Sliding memory limiter (`src/limiter.rs`)

The limiter stores per-bucket `u16` counters in a
`cached::TimedSizedCache<u64, u16>` created with
`TimedSizedCache::with_size_and_lifespan(256, config.window.as_secs())`.
Counter arithmetic is `u16`, modelled as `Nat` modulo `2^16`.
Time is modelled in whole seconds (the source uses `as_secs()`). -/

/-- `u16` modulus: the limiter's counters and their iterator sum wrap at `2^16`. -/
def U16MOD : Nat := 65536

/-- `Config` from `limiter.rs`: `window` is the value of `config.window.as_secs()`,
`resolution` and `max` are the `u16` fields widened to `Nat`. -/
structure Config where
  window : Nat
  resolution : Nat
  max : Nat
deriving DecidableEq

/-- One resident cache entry of the `TimedSizedCache`: the `Instant` recorded when the
entry was (re)set, in whole seconds, and the `u16` counter value. -/
structure Entry where
  stamp : Nat
  count : Nat
deriving DecidableEq

/-- Model of the `cached::TimedSizedCache<u64, u16>` used by `SlidingMemoryLimiter`:
an association list from bucket key to stamped counter kept in most-recently-used-first
order, the capacity (`size`, 256 in the source) and the lifespan in seconds
(`config.window.as_secs()`).  Entries expire `lifespan` seconds after the stamp but stay
resident until an access replaces them or an insertion at capacity evicts the
least-recently-used entry. -/
structure TimedSizedCache where
  store : List (Nat × Entry)
  size : Nat
  lifespan : Nat
deriving DecidableEq

/-- Sum of the resident counters, without wrap: used as the bookkeeping quantity. -/
def sumCounts (s : List (Nat × Entry)) : Nat :=
  (s.map fun kv => kv.2.count).sum

/-- The check value computed in `poll_ready`:
`guard.value_order().map(|val| val.1).sum::<u16>()` — the `u16` sum over every resident
entry of the cache (`value_order` does not filter expired entries), wrapping at `2^16`. -/
def valueOrderSum (c : TimedSizedCache) : Nat :=
  sumCounts c.store % U16MOD

/-- Remove the entry with the given key from the store, returning it (the cache is a
hash map; in the model the first matching entry is taken). -/
def extractKey (key : Nat) : List (Nat × Entry) → Option Entry × List (Nat × Entry)
  | [] => (none, [])
  | kv :: rest =>
    if kv.1 = key then (some kv.2, rest)
    else
      let r := extractKey key rest
      (r.1, kv :: r.2)

/-- The body of `SlidingMemoryLimiter::call` on the cache:
`guard.cache_get_or_set_with(current_min, || 0)` followed by `*bucket += 1`.
Per `cached`'s semantics: a present entry that is still within the lifespan is moved to
the front and incremented; a present but expired entry is replaced by a fresh stamped
zero (then incremented); an absent key is inserted at the front, evicting the
least-recently-used entry when the cache is at capacity. -/
def cache_record (c : TimedSizedCache) (key now : Nat) : TimedSizedCache :=
  let ex := extractKey key c.store
  match ex.1 with
  | some e =>
    if now - e.stamp < c.lifespan then
      { c with store := (key, ⟨e.stamp, (e.count + 1) % U16MOD⟩) :: ex.2 }
    else
      { c with store := (key, ⟨now, (0 + 1) % U16MOD⟩) :: ex.2 }
  | none =>
    let kept := if c.store.length < c.size then c.store else c.store.dropLast
    { c with store := (key, ⟨now, (0 + 1) % U16MOD⟩) :: kept }

/-- `LimiterError<E>` from `limiter.rs`: the distinguishable rate-limit rejection and
the transparent wrapper around a downstream error. -/
inductive LimiterError where
  | ratelimited
  | underlying
deriving DecidableEq

/-- Observable steps of one request through the limiter: the count check in
`poll_ready`, the bucket increment in `call`, and the invocation of the downstream
service (`self.service.call(req)`). -/
inductive Event where
  | check
  | record (bucket : Nat)
  | forward
deriving DecidableEq

def isRecord : Event → Bool
  | .record _ => true
  | _ => false

def isForward : Event → Bool
  | .forward => true
  | _ => false

/-- The bucket key computed in `call`:
`SystemTime::now().duration_since(UNIX_EPOCH).as_secs() / resolution`. -/
def bucketOf (cfg : Config) (now : Nat) : Nat :=
  now / cfg.resolution

/-- Result of processing one admission request. -/
structure StepResult where
  cache : TimedSizedCache
  error : Option LimiterError
  events : List Event
deriving DecidableEq

/-- One sequential admission attempt: `poll_ready` (acquire the lock, sum the buckets,
reject with `Ratelimited` when `sum >= max`) followed, when it succeeds, by `call`
(increment the current bucket, then call the downstream service).  The downstream
service is modelled as always ready and succeeding; there are no concurrent writers, so
the lock acquisition always succeeds immediately. -/
def attempt (cfg : Config) (c : TimedSizedCache) (now : Nat) : StepResult :=
  if cfg.max ≤ valueOrderSum c then
    { cache := c, error := some .ratelimited, events := [.check] }
  else
    { cache := cache_record c (bucketOf cfg now) now
      error := none
      events := [.check, .record (bucketOf cfg now), .forward] }

/-- Outcome of running a sequence of admission requests. -/
structure RunResult where
  cache : TimedSizedCache
  forwarded : Nat
deriving DecidableEq

/-- Run the limiter over a list of request times (seconds), counting how many requests
were forwarded to the downstream service. -/
def runLimiter (cfg : Config) : TimedSizedCache → List Nat → RunResult
  | c, [] => { cache := c, forwarded := 0 }
  | c, t :: ts =>
    let r := attempt cfg c t
    let rest := runLimiter cfg r.cache ts
    { cache := rest.cache
      forwarded := (if r.error = none then 1 else 0) + rest.forwarded }

/-- The fresh cache built by `SlidingMemoryLimiter::new`:
`TimedSizedCache::with_size_and_lifespan(256, config.window.as_secs())`. -/
def limiterCache (cfg : Config) : TimedSizedCache :=
  { store := [], size := 256, lifespan := cfg.window }

/-! ## Bookkeeping lemmas for the cache -/

theorem extractKey_none (key : Nat) :
    ∀ (s r : List (Nat × Entry)), extractKey key s = (none, r) → r = s := by
  intro s
  induction s with
  | nil =>
    intro r h
    simp only [extractKey, Prod.mk.injEq] at h
    exact h.2.symm
  | cons kv rest ih =>
    intro r h
    rcases hrec : extractKey key rest with ⟨o, r2⟩
    by_cases hk : kv.1 = key
    · simp only [extractKey, if_pos hk, Prod.mk.injEq] at h
      exact absurd h.1 (by simp)
    · simp only [extractKey, if_neg hk, hrec, Prod.mk.injEq] at h
      obtain ⟨h1, h2⟩ := h
      subst h1
      rw [← h2, ih r2 hrec]

theorem extractKey_some (key : Nat) :
    ∀ (s : List (Nat × Entry)) (e : Entry) (r : List (Nat × Entry)),
      extractKey key s = (some e, r) →
      sumCounts s = e.count + sumCounts r ∧ s.length = r.length + 1 ∧
      (∀ kv ∈ r, kv ∈ s) ∧ (key, e) ∈ s := by
  intro s
  induction s with
  | nil => intro e r h; simp [extractKey] at h
  | cons kv rest ih =>
    intro e r h
    rcases hrec : extractKey key rest with ⟨o, r2⟩
    by_cases hk : kv.1 = key
    · simp only [extractKey, if_pos hk, Prod.mk.injEq] at h
      obtain ⟨h1, h2⟩ := h
      obtain rfl : kv.2 = e := Option.some.inj h1
      subst h2
      refine ⟨by simp [sumCounts], by simp, ?_, ?_⟩
      · intro x hx; exact List.mem_cons_of_mem _ hx
      · rw [← hk]
        exact List.mem_cons_self _ _
    · simp only [extractKey, if_neg hk, hrec, Prod.mk.injEq] at h
      obtain ⟨h1, h2⟩ := h
      subst h1
      obtain ⟨s1, s2, s3, s4⟩ := ih e r2 hrec
      subst h2
      refine ⟨by simp [sumCounts] at s1 ⊢; omega, by simp [s2], ?_, ?_⟩
      · intro x hx
        rcases List.mem_cons.mp hx with hx | hx
        · exact hx ▸ List.mem_cons_self _ _
        · exact List.mem_cons_of_mem _ (s3 x hx)
      · exact List.mem_cons_of_mem _ s4

theorem sumCounts_cons (kv : Nat × Entry) (r : List (Nat × Entry)) :
    sumCounts (kv :: r) = kv.2.count + sumCounts r := by
  simp [sumCounts]

/-- All resident stamps lie within `[lo, hi]`. -/
def StampsIn (lo hi : Nat) (c : TimedSizedCache) : Prop :=
  ∀ kv ∈ c.store, lo ≤ kv.2.stamp ∧ kv.2.stamp ≤ hi

/-- Structural invariant of a cache reachable from the fresh limiter while all request
times stay in `[lo, hi]`: the capacity is the hard-coded 256, the lifespan is the
configured window, every entry counts at least one admission, and stamps are bracketed
by the request times seen so far. -/
def InvBase (wnd lo hi : Nat) (c : TimedSizedCache) : Prop :=
  c.size = 256 ∧ c.lifespan = wnd ∧ lo ≤ hi ∧
  c.store.length ≤ sumCounts c.store ∧ StampsIn lo hi c

theorem valueOrderSum_eq (c : TimedSizedCache) (h : sumCounts c.store < U16MOD) :
    valueOrderSum c = sumCounts c.store :=
  Nat.mod_eq_of_lt h

theorem cache_record_spec (c : TimedSizedCache) (key t lo hi : Nat)
    (hsize : c.size = 256) (hlen : c.store.length ≤ sumCounts c.store)
    (hstamps : StampsIn lo hi c) (hsum : sumCounts c.store < 256)
    (hlo : lo ≤ hi) (hht : hi ≤ t) (ht : t < lo + c.lifespan) :
    sumCounts (cache_record c key t).store = sumCounts c.store + 1 ∧
    (cache_record c key t).store.length ≤ sumCounts (cache_record c key t).store ∧
    StampsIn lo t (cache_record c key t) ∧
    (cache_record c key t).size = 256 ∧
    (cache_record c key t).lifespan = c.lifespan := by
  rcases hex : extractKey key c.store with ⟨o, r⟩
  cases o with
  | some e =>
    obtain ⟨s1, s2, s3, s4⟩ := extractKey_some key c.store e r hex
    have q1 : lo ≤ e.stamp := (hstamps _ s4).1
    have q2 : e.stamp ≤ hi := (hstamps _ s4).2
    have hvalid : t - e.stamp < c.lifespan := by omega
    have hcount : e.count + 1 < U16MOD := by
      have he : e.count ≤ sumCounts c.store := by omega
      simp only [U16MOD]; omega
    have hmod : (e.count + 1) % U16MOD = e.count + 1 := Nat.mod_eq_of_lt hcount
    have hcr : cache_record c key t
        = { c with store := (key, ⟨e.stamp, (e.count + 1) % U16MOD⟩) :: r } := by
      simp only [cache_record, hex, if_pos hvalid]
    rw [hcr]
    refine ⟨?_, ?_, ?_, hsize, rfl⟩
    · rw [sumCounts_cons]
      show (e.count + 1) % U16MOD + sumCounts r = sumCounts c.store + 1
      rw [hmod]; omega
    · rw [sumCounts_cons]
      show ((key, (⟨e.stamp, (e.count + 1) % U16MOD⟩ : Entry)) :: r).length
        ≤ (e.count + 1) % U16MOD + sumCounts r
      rw [hmod]
      simp only [List.length_cons]
      omega
    · intro kv hkv
      rcases List.mem_cons.mp hkv with hkv | hkv
      · subst hkv
        refine ⟨q1, ?_⟩
        show e.stamp ≤ t
        omega
      · have w1 : lo ≤ kv.2.stamp := (hstamps _ (s3 _ hkv)).1
        have w2 : kv.2.stamp ≤ hi := (hstamps _ (s3 _ hkv)).2
        exact ⟨w1, by omega⟩
  | none =>
    have hlt : c.store.length < c.size := by omega
    have hcr : cache_record c key t
        = { c with store := (key, ⟨t, (0 + 1) % U16MOD⟩) :: c.store } := by
      simp only [cache_record, hex, if_pos hlt]
    have hmod1 : (0 + 1) % U16MOD = 1 := by decide
    rw [hcr]
    refine ⟨?_, ?_, ?_, hsize, rfl⟩
    · rw [sumCounts_cons]
      show (0 + 1) % U16MOD + sumCounts c.store = sumCounts c.store + 1
      rw [hmod1]; omega
    · rw [sumCounts_cons]
      show ((key, (⟨t, (0 + 1) % U16MOD⟩ : Entry)) :: c.store).length
        ≤ (0 + 1) % U16MOD + sumCounts c.store
      rw [hmod1]
      simp only [List.length_cons]
      omega
    · intro kv hkv
      rcases List.mem_cons.mp hkv with hkv | hkv
      · subst hkv
        constructor
        · show lo ≤ t
          omega
        · show t ≤ t
          omega
      · have w1 : lo ≤ kv.2.stamp := (hstamps _ hkv).1
        have w2 : kv.2.stamp ≤ hi := (hstamps _ hkv).2
        exact ⟨w1, by omega⟩

theorem attempt_rejected (cfg : Config) (c : TimedSizedCache) (t : Nat)
    (h : cfg.max ≤ valueOrderSum c) :
    attempt cfg c t = { cache := c, error := some .ratelimited, events := [.check] } := by
  simp [attempt, h]

theorem attempt_admitted (cfg : Config) (c : TimedSizedCache) (t : Nat)
    (h : valueOrderSum c < cfg.max) :
    attempt cfg c t =
      { cache := cache_record c (bucketOf cfg t) t
        error := none
        events := [.check, .record (bucketOf cfg t), .forward] } := by
  simp [attempt, Nat.not_le.mpr h]

theorem runLimiter_le (cfg : Config) (hcap : cfg.max ≤ 256) (lo : Nat) :
    ∀ (ts : List Nat) (c : TimedSizedCache) (hi : Nat),
      InvBase cfg.window lo hi c → sumCounts c.store ≤ cfg.max →
      ts.Pairwise (· ≤ ·) → (∀ t ∈ ts, hi ≤ t ∧ t < lo + cfg.window) →
      (runLimiter cfg c ts).forwarded + sumCounts c.store ≤ cfg.max := by
  intro ts
  induction ts with
  | nil =>
    intro c hi hinv hsum hp hspan
    simpa [runLimiter] using hsum
  | cons t ts ih =>
    intro c hi hinv hsum hp hspan
    obtain ⟨hsize, hwnd, hlohi, hlen, hstamps⟩ := hinv
    obtain ⟨hht, htlt⟩ := hspan t (List.mem_cons_self _ _)
    have hspan' : ∀ u ∈ ts, t ≤ u ∧ u < lo + cfg.window := by
      intro u hu
      exact ⟨(List.pairwise_cons.mp hp).1 u hu, (hspan u (List.mem_cons_of_mem _ hu)).2⟩
    have hp' := (List.pairwise_cons.mp hp).2
    by_cases hmax : cfg.max ≤ valueOrderSum c
    · have ha := attempt_rejected cfg c t hmax
      simp only [runLimiter, ha]
      have hstamps' : StampsIn lo t c := by
        intro kv hkv
        obtain ⟨w1, w2⟩ := hstamps _ hkv
        exact ⟨w1, by omega⟩
      have := ih c t ⟨hsize, hwnd, by omega, hlen, hstamps'⟩ hsum hp' hspan'
      simpa using this
    · have hmax' : valueOrderSum c < cfg.max := Nat.not_le.mp hmax
      have hsum256 : sumCounts c.store < 256 := by
        have : sumCounts c.store < U16MOD := by
          simp only [U16MOD]; omega
        rw [valueOrderSum_eq c this] at hmax'
        omega
      have ha := attempt_admitted cfg c t hmax'
      obtain ⟨r1, r2, r3, r4, r5⟩ :=
        cache_record_spec c (bucketOf cfg t) t lo hi hsize hlen hstamps hsum256 hlohi hht
          (by omega)
      have hsumlt : sumCounts c.store < cfg.max := by
        have : sumCounts c.store < U16MOD := by simp only [U16MOD]; omega
        rw [valueOrderSum_eq c this] at hmax'
        exact hmax'
      have hrec := ih (cache_record c (bucketOf cfg t) t) t
        ⟨r4, by rw [r5, hwnd], by omega, r2, r3⟩ (by omega) hp' hspan'
      simp only [runLimiter, ha]
      simp only [runLimiter] at hrec
      rw [r1] at hrec
      simp at hrec ⊢
      omega

theorem runLimiter_exact (cfg : Config) (lo : Nat) :
    ∀ (ts : List Nat) (c : TimedSizedCache) (hi : Nat),
      InvBase cfg.window lo hi c →
      sumCounts c.store + ts.length ≤ cfg.max →
      sumCounts c.store + ts.length ≤ 256 →
      ts.Pairwise (· ≤ ·) → (∀ t ∈ ts, hi ≤ t ∧ t < lo + cfg.window) →
      (runLimiter cfg c ts).forwarded = ts.length ∧
      sumCounts (runLimiter cfg c ts).cache.store = sumCounts c.store + ts.length := by
  intro ts
  induction ts with
  | nil =>
    intro c hi hinv hmax h256 hp hspan
    simp [runLimiter]
  | cons t ts ih =>
    intro c hi hinv hmax h256 hp hspan
    obtain ⟨hsize, hwnd, hlohi, hlen, hstamps⟩ := hinv
    obtain ⟨hht, htlt⟩ := hspan t (List.mem_cons_self _ _)
    have hspan' : ∀ u ∈ ts, t ≤ u ∧ u < lo + cfg.window := by
      intro u hu
      exact ⟨(List.pairwise_cons.mp hp).1 u hu, (hspan u (List.mem_cons_of_mem _ hu)).2⟩
    have hp' := (List.pairwise_cons.mp hp).2
    have hsum256 : sumCounts c.store < 256 := by
      simp only [List.length_cons] at h256; omega
    have hUmod : sumCounts c.store < U16MOD := by simp only [U16MOD]; omega
    have hmax' : valueOrderSum c < cfg.max := by
      rw [valueOrderSum_eq c hUmod]
      simp only [List.length_cons] at hmax; omega
    have ha := attempt_admitted cfg c t hmax'
    obtain ⟨r1, r2, r3, r4, r5⟩ :=
      cache_record_spec c (bucketOf cfg t) t lo hi hsize hlen hstamps hsum256 hlohi hht
        (by omega)
    have hrec := ih (cache_record c (bucketOf cfg t) t) t
      ⟨r4, by rw [r5, hwnd], by omega, r2, r3⟩
      (by rw [r1]; simp only [List.length_cons] at hmax; omega)
      (by rw [r1]; simp only [List.length_cons] at h256; omega)
      hp' hspan'
    simp only [runLimiter, ha]
    simp only [runLimiter] at hrec
    rw [r1] at hrec
    simp at hrec ⊢
    omega

/-- Claim C1 (amended with the `max ≤ 256` proviso forced by the hard-coded cache
capacity): for every sequence of admission requests handled sequentially by one
`SlidingMemoryLimiter` whose configured `max` does not exceed the cache capacity 256,
at most `max` requests whose times fall within one window are forwarded downstream,
and whenever the bucket sum has reached `max`, `poll_ready` rejects the request with
the `Ratelimited` error and leaves the cache unchanged. -/
theorem sliding_limiter_window_bound (cfg : Config) (hcap : cfg.max ≤ 256)
    (lo : Nat) (ts : List Nat) (hsort : ts.Pairwise (· ≤ ·))
    (hspan : ∀ t ∈ ts, lo ≤ t ∧ t < lo + cfg.window) :
    (runLimiter cfg (limiterCache cfg) ts).forwarded ≤ cfg.max ∧
    (∀ (c : TimedSizedCache) (t : Nat), cfg.max ≤ valueOrderSum c →
      attempt cfg c t = { cache := c, error := some .ratelimited, events := [.check] }) := by
  constructor
  · have hinv : InvBase cfg.window lo lo (limiterCache cfg) := by
      refine ⟨rfl, rfl, le_refl _, by simp [limiterCache, sumCounts], ?_⟩
      intro kv hkv
      simp [limiterCache] at hkv
    have h := runLimiter_le cfg hcap lo ts (limiterCache cfg) lo hinv
      (by simp [limiterCache, sumCounts]) hsort hspan
    simpa [limiterCache, sumCounts] using h
  · intro c t h
    exact attempt_rejected cfg c t h

theorem sliding_limiter_window_bound_witness :
    (runLimiter ⟨60, 1, 2⟩ (limiterCache ⟨60, 1, 2⟩) [0, 0, 1]).forwarded ≤ 2 := by
  have h := sliding_limiter_window_bound ⟨60, 1, 2⟩ (by decide) 0 [0, 0, 1]
    (by decide) (by decide)
  exact h.1

/-- Claim C1 counterexample: with `max = 257` (one more than the hard-coded capacity
256 of the `TimedSizedCache`), 258 requests at seconds 0..257 — all inside one 600 s
window — are every one forwarded, because the LRU eviction at capacity forgets the
counts of evicted buckets; so the number forwarded within one window exceeds `max`. -/
theorem sliding_limiter_window_bound_counterexample :
    ((List.range 258).Pairwise (· ≤ ·) ∧ ∀ t ∈ List.range 258, t < 600) ∧
    (runLimiter ⟨600, 1, 257⟩ (limiterCache ⟨600, 1, 257⟩) (List.range 258)).forwarded
      = 258 ∧
    ¬ (258 ≤ 257) := by
  refine ⟨by decide, by decide, by decide⟩

/-- Claim C2 (amended with the `N ≤ 256` proviso forced by the hard-coded cache
capacity): starting from a fresh limiter, N admitted calls at nondecreasing times
within one window, with N at most `max` (so all are admitted) and at most the cache
capacity 256, forward exactly N requests, each incrementing exactly one bucket by one,
and the bucket sum computed by `poll_ready` afterwards is exactly N. -/
theorem sliding_limiter_count_exact (cfg : Config) (lo : Nat) (ts : List Nat)
    (hN : ts.length ≤ cfg.max) (hcap : ts.length ≤ 256)
    (hsort : ts.Pairwise (· ≤ ·))
    (hspan : ∀ t ∈ ts, lo ≤ t ∧ t < lo + cfg.window) :
    (runLimiter cfg (limiterCache cfg) ts).forwarded = ts.length ∧
    valueOrderSum (runLimiter cfg (limiterCache cfg) ts).cache = ts.length := by
  have hinv : InvBase cfg.window lo lo (limiterCache cfg) := by
    refine ⟨rfl, rfl, le_refl _, by simp [limiterCache, sumCounts], ?_⟩
    intro kv hkv
    simp [limiterCache] at hkv
  have h := runLimiter_exact cfg lo ts (limiterCache cfg) lo hinv
    (by simpa [limiterCache, sumCounts] using hN)
    (by simpa [limiterCache, sumCounts] using hcap)
    hsort hspan
  obtain ⟨h1, h2⟩ := h
  have h0 : sumCounts (limiterCache cfg).store = 0 := by simp [limiterCache, sumCounts]
  rw [h0] at h2
  refine ⟨h1, ?_⟩
  rw [valueOrderSum_eq _ (by simp only [U16MOD]; omega), h2]
  omega

theorem sliding_limiter_count_exact_witness :
    (runLimiter ⟨60, 2, 5⟩ (limiterCache ⟨60, 2, 5⟩) [0, 1, 7]).forwarded = 3 ∧
    valueOrderSum (runLimiter ⟨60, 2, 5⟩ (limiterCache ⟨60, 2, 5⟩) [0, 1, 7]).cache = 3 := by
  have h := sliding_limiter_count_exact ⟨60, 2, 5⟩ 0 [0, 1, 7]
    (by decide) (by decide) (by decide) (by decide)
  exact h

/-- Claim C2 counterexample: 257 admitted calls at seconds 0..256 (window 600 s,
`max = 300`, so every call is admitted) leave a bucket sum of only 256, not 257: the
257th insertion evicts the least-recently-used bucket and its count is lost. -/
theorem sliding_limiter_count_exact_counterexample :
    ((List.range 257).Pairwise (· ≤ ·) ∧ ∀ t ∈ List.range 257, t < 600) ∧
    (runLimiter ⟨600, 1, 300⟩ (limiterCache ⟨600, 1, 300⟩) (List.range 257)).forwarded
      = 257 ∧
    valueOrderSum (runLimiter ⟨600, 1, 300⟩ (limiterCache ⟨600, 1, 300⟩)
      (List.range 257)).cache = 256 ∧
    (256 : Nat) ≠ 257 := by
  refine ⟨by decide, by decide, by decide, by decide⟩

/-- Claim C4: whenever the bucket sum is at least the configured `max`, the limiter
rejects with the distinguishable `Ratelimited` error (distinct from the `Underlying`
wrapper for downstream failures), does not invoke the downstream service, and leaves
every bucket counter unchanged — a rejected request consumes no quota. -/
theorem limiter_rejects_at_max (cfg : Config) (c : TimedSizedCache) (t : Nat)
    (h : cfg.max ≤ valueOrderSum c) :
    (attempt cfg c t).error = some LimiterError.ratelimited ∧
    LimiterError.ratelimited ≠ LimiterError.underlying ∧
    (attempt cfg c t).cache = c ∧
    (attempt cfg c t).events = [Event.check] ∧
    Event.forward ∉ (attempt cfg c t).events := by
  rw [attempt_rejected cfg c t h]
  exact ⟨rfl, by simp, rfl, rfl, by simp⟩

theorem limiter_rejects_at_max_witness :
    (attempt ⟨60, 1, 1⟩ ⟨[(0, ⟨0, 1⟩)], 256, 60⟩ 5).error = some LimiterError.ratelimited ∧
    LimiterError.ratelimited ≠ LimiterError.underlying ∧
    (attempt ⟨60, 1, 1⟩ ⟨[(0, ⟨0, 1⟩)], 256, 60⟩ 5).cache = ⟨[(0, ⟨0, 1⟩)], 256, 60⟩ ∧
    (attempt ⟨60, 1, 1⟩ ⟨[(0, ⟨0, 1⟩)], 256, 60⟩ 5).events = [Event.check] ∧
    Event.forward ∉ (attempt ⟨60, 1, 1⟩ ⟨[(0, ⟨0, 1⟩)], 256, 60⟩ 5).events :=
  limiter_rejects_at_max ⟨60, 1, 1⟩ ⟨[(0, ⟨0, 1⟩)], 256, 60⟩ 5 (by decide)

/-- Claim C8 (amended as the counterexample forces: the record precedes the forward):
for every admitted request the limiter's steps occur in the order check, then record,
then forward — `call` increments the bucket counter before invoking the downstream
service, so an admitted request leaves its usage record even if the downstream call is
later cancelled. -/
theorem call_event_order (cfg : Config) (c : TimedSizedCache) (t : Nat)
    (h : valueOrderSum c < cfg.max) :
    (attempt cfg c t).events
      = [Event.check, Event.record (bucketOf cfg t), Event.forward] ∧
    (attempt cfg c t).events.findIdx isRecord
      < (attempt cfg c t).events.findIdx isForward := by
  rw [attempt_admitted cfg c t h]
  refine ⟨rfl, ?_⟩
  simp [List.findIdx_cons, isRecord, isForward]

theorem call_event_order_witness :
    (attempt ⟨60, 1, 3⟩ (limiterCache ⟨60, 1, 3⟩) 0).events
      = [Event.check, Event.record 0, Event.forward] :=
  (call_event_order ⟨60, 1, 3⟩ (limiterCache ⟨60, 1, 3⟩) 0 (by decide)).1

/-- Claim C8 counterexample: on a concrete admitted request the event trace is
check, record, forward — the forward does not precede the record, refuting the claimed
check-forward-record ordering. -/
theorem call_event_order_counterexample :
    (attempt ⟨60, 1, 3⟩ (limiterCache ⟨60, 1, 3⟩) 7).events
      = [Event.check, Event.record 7, Event.forward] ∧
    ¬ ((attempt ⟨60, 1, 3⟩ (limiterCache ⟨60, 1, 3⟩) 7).events.findIdx isForward
        < (attempt ⟨60, 1, 3⟩ (limiterCache ⟨60, 1, 3⟩) 7).events.findIdx isRecord) := by
  refine ⟨by decide, by decide⟩

/-! # Distributed count store
(`src/repo/etcd/limit.rs`, `src/repo/etcd/request.rs`, `src/repo/limit.rs`)

Durations and timestamps are modelled in integer milliseconds (the source formats keys
with `as_millis()`).  The backend is modelled as a function from requests to
responses; `get_limit` and `add_req` also return the list of requests they issued, so
that claims about which backend calls happen are statable. -/

/-- `GetOptions` from `repo/etcd/request.rs`: a range end and the count-only flag. -/
structure GetOptions where
  range_end : String
  count_only : Bool
deriving DecidableEq

/-- `EtcdRequest`: a put of a value under a key, or a (range) get.  Keys are the
formatted strings of the source; the put value `vec![1]` is the one-byte marker. -/
inductive EtcdRequest where
  | put (key : String) (value : List Nat)
  | get (key : String) (options : Option GetOptions)
deriving DecidableEq

/-- `EtcdLimitRepoError` from `repo/etcd/limit.rs` / `repo/limit.rs`: conversion
failure (carrying the offending `i64` count), window-too-large (carrying the requested
and maximum durations in milliseconds, in that order), and a transparent backend
error. -/
inductive EtcdLimitRepoError (ε : Type) where
  | couldNotConvertEtcdCount (count : Int)
  | rangeLongerThanMax (requested maximum : Nat)
  | etcd (e : ε)
deriving DecidableEq

/-- The key scheme: `format!("limit_{}_{}", key, millis)`. -/
def limitKey (key : String) (ms : Nat) : String :=
  "limit_" ++ key ++ "_" ++ Nat.repr ms

/-- `u32::MAX` as an integer. -/
def U32MAX : Int := 4294967295

/-- One run of `get_limit`: the backend requests issued and the final result. -/
structure GetLimitRun (ε : Type) where
  requests : List EtcdRequest
  result : Except (EtcdLimitRepoError ε) Nat

/-- `EtcdLimitRepo::get_limit` (`repo/etcd/limit.rs`): reject a range longer than
`max_lease` before any backend call; otherwise issue one count-only range get from
`limit_<key>_<millis(now - range)>` to `limit_<key>_<millis(now + 60 s)>` (the source
adds a fixed 60 seconds of slack for peers whose clocks run ahead), then convert the
returned `i64` count to `u32`, failing with `CouldNotConvertEtcdCount` when it does
not fit. -/
def get_limit (maxLease : Nat) (backend : EtcdRequest → Except ε Int) (now : Nat)
    (key : String) (range : Nat) : GetLimitRun ε :=
  if maxLease < range then
    { requests := [], result := .error (.rangeLongerThanMax range maxLease) }
  else
    let req := EtcdRequest.get (limitKey key (now - range))
      (some { range_end := limitKey key (now + 60000), count_only := true })
    { requests := [req]
      result :=
        match backend req with
        | .error e => .error (.etcd e)
        | .ok res =>
          if 0 ≤ res ∧ res ≤ U32MAX then .ok res.toNat
          else .error (.couldNotConvertEtcdCount res) }

/-- Claim C3: for every window strictly greater than `max_lease`, `get_limit` returns
the `RangeLongerThanMax` error carrying the requested and the maximum duration in that
order and issues no backend request at all; for windows at most `max_lease` this error
is never returned. -/
theorem get_limit_window_guard (ε : Type) (maxLease : Nat)
    (backend : EtcdRequest → Except ε Int) (now : Nat) (key : String) (range : Nat) :
    (maxLease < range →
      get_limit maxLease backend now key range
        = { requests := [], result := .error (.rangeLongerThanMax range maxLease) }) ∧
    (range ≤ maxLease → ∀ a b : Nat,
      (get_limit maxLease backend now key range).result
        ≠ .error (.rangeLongerThanMax a b)) := by
  constructor
  · intro h
    simp [get_limit, h]
  · intro h a b
    have hn : ¬ maxLease < range := Nat.not_lt.mpr h
    simp only [get_limit, if_neg hn]
    cases hb : backend (EtcdRequest.get (limitKey key (now - range))
        (some { range_end := limitKey key (now + 60000), count_only := true })) with
    | error e => simp
    | ok res =>
      by_cases hres : 0 ≤ res ∧ res ≤ U32MAX
      · simp [hres]
      · simp [hres]

theorem get_limit_window_guard_witness :
    get_limit 1000 (fun _ => (Except.ok 5 : Except Nat Int)) 50000 "a" 2000
      = { requests := [], result := .error (.rangeLongerThanMax 2000 1000) } ∧
    ∀ a b : Nat,
      (get_limit 1000 (fun _ => (Except.ok 5 : Except Nat Int)) 50000 "a" 500).result
        ≠ .error (.rangeLongerThanMax a b) := by
  constructor
  · exact (get_limit_window_guard Nat 1000
      (fun _ => (Except.ok 5 : Except Nat Int)) 50000 "a" 2000).1 (by decide)
  · exact (get_limit_window_guard Nat 1000
      (fun _ => (Except.ok 5 : Except Nat Int)) 50000 "a" 500).2 (by decide)

/-- Claim C5: for every window at most `max_lease`, `get_limit` issues exactly one
count-only range query whose start key is `limit_<key>_<millis(now - window)>` and
whose range-end key is `limit_<key>_<millis(now + skew)>`, the skew being the fixed
60-second allowance the source adds for peers whose clocks run ahead. -/
theorem get_limit_single_range_request (ε : Type) (maxLease : Nat)
    (backend : EtcdRequest → Except ε Int) (now : Nat) (key : String) (range : Nat)
    (h : range ≤ maxLease) :
    (get_limit maxLease backend now key range).requests
      = [EtcdRequest.get ("limit_" ++ key ++ "_" ++ Nat.repr (now - range))
          (some { range_end := "limit_" ++ key ++ "_" ++ Nat.repr (now + 60000)
                  count_only := true })] := by
  have hn : ¬ maxLease < range := Nat.not_lt.mpr h
  simp [get_limit, if_neg hn, limitKey]

theorem get_limit_single_range_request_witness :
    (get_limit 1000 (fun _ => (Except.ok 5 : Except Nat Int)) 50000 "a" 500).requests
      = [EtcdRequest.get ("limit_" ++ "a" ++ "_" ++ Nat.repr 49500)
          (some { range_end := "limit_" ++ "a" ++ "_" ++ Nat.repr 110000
                  count_only := true })] := by
  have h := get_limit_single_range_request Nat 1000
    (fun _ => (Except.ok 5 : Except Nat Int)) 50000 "a" 500 (by decide)
  simpa using h

/-- Claim C10: for every backend count value, if it is nonnegative and at most
`u32::MAX` then `get_limit` returns `Ok` of exactly that value; otherwise it returns
the `CouldNotConvertEtcdCount` error carrying the offending value. -/
theorem get_limit_count_conversion (ε : Type) (maxLease : Nat) (now : Nat)
    (key : String) (range : Nat) (v : Int) (h : range ≤ maxLease) :
    ((0 ≤ v ∧ v ≤ U32MAX) →
      (get_limit maxLease (fun _ => (Except.ok v : Except ε Int)) now key range).result
          = .ok v.toNat ∧ (v.toNat : Int) = v) ∧
    (¬ (0 ≤ v ∧ v ≤ U32MAX) →
      (get_limit maxLease (fun _ => (Except.ok v : Except ε Int)) now key range).result
        = .error (.couldNotConvertEtcdCount v)) := by
  have hn : ¬ maxLease < range := Nat.not_lt.mpr h
  constructor
  · intro hv
    refine ⟨by simp [get_limit, if_neg hn, hv], Int.toNat_of_nonneg hv.1⟩
  · intro hv
    simp [get_limit, if_neg hn, hv]

theorem get_limit_count_conversion_witness :
    ((get_limit 1000 (fun _ => (Except.ok 200 : Except Nat Int)) 50000 "a" 500).result
        = .ok 200) ∧
    ((get_limit 1000 (fun _ => (Except.ok (-3) : Except Nat Int)) 50000 "a" 500).result
        = .error (.couldNotConvertEtcdCount (-3))) := by
  constructor
  · exact ((get_limit_count_conversion Nat 1000 50000 "a" 500 200 (by decide)).1
      (by decide)).1
  · exact (get_limit_count_conversion Nat 1000 50000 "a" 500 (-3) (by decide)).2
      (by decide)

/-- The retry loop of `add_req` (`repo/limit.rs`): `for i in 0..2`, each iteration
re-reads the clock, writes the one-byte marker `vec![1]` under
`limit_<key>_<millis(now)>`, returns `Ok(())` on the first success, and after the
final failed iteration returns that iteration's wrapped backend error.  `clock i` is
the time read in iteration `i`; `backend i` answers iteration `i`'s request. -/
def add_req_go (clock : Nat → Nat) (backend : Nat → EtcdRequest → Except ε Unit)
    (key : String) :
    List Nat → Except (EtcdLimitRepoError ε) Unit →
      List EtcdRequest × Except (EtcdLimitRepoError ε) Unit
  | [], err => ([], err)
  | i :: rest, _ =>
    let req := EtcdRequest.put (limitKey key (clock i)) [1]
    match backend i req with
    | .ok _ => ([req], .ok ())
    | .error e =>
      let r := add_req_go clock backend key rest (.error (.etcd e))
      (req :: r.1, r.2)

/-- `add_req` (`repo/limit.rs`): the loop body run for iterations `0` and `1`,
starting from the vacuous `Ok(())`. -/
def add_req (clock : Nat → Nat) (backend : Nat → EtcdRequest → Except ε Unit)
    (key : String) : List EtcdRequest × Except (EtcdLimitRepoError ε) Unit :=
  add_req_go clock backend key [0, 1] (.ok ())

/-- Claim C6: every attempted write targets `limit_<key>_<millis(now)>` with the
clock re-read per attempt (so a retry targets a fresh key once time has advanced);
the write is attempted a bounded number of times (iterations 0 and 1); the first
success returns `Ok`; and when every attempt fails, the wrapped underlying store
error of the final attempt is returned — never success. -/
theorem add_req_bounded_retry (ε : Type) (clock : Nat → Nat)
    (backend : Nat → EtcdRequest → Except ε Unit) (key : String) :
    (backend 0 (EtcdRequest.put (limitKey key (clock 0)) [1]) = .ok () →
      add_req clock backend key
        = ([EtcdRequest.put (limitKey key (clock 0)) [1]], .ok ())) ∧
    (∀ e0, backend 0 (EtcdRequest.put (limitKey key (clock 0)) [1]) = .error e0 →
      backend 1 (EtcdRequest.put (limitKey key (clock 1)) [1]) = .ok () →
      add_req clock backend key
        = ([EtcdRequest.put (limitKey key (clock 0)) [1],
            EtcdRequest.put (limitKey key (clock 1)) [1]], .ok ())) ∧
    (∀ e0 e1, backend 0 (EtcdRequest.put (limitKey key (clock 0)) [1]) = .error e0 →
      backend 1 (EtcdRequest.put (limitKey key (clock 1)) [1]) = .error e1 →
      add_req clock backend key
        = ([EtcdRequest.put (limitKey key (clock 0)) [1],
            EtcdRequest.put (limitKey key (clock 1)) [1]],
           .error (.etcd e1))) := by
  refine ⟨?_, ?_, ?_⟩
  · intro h
    simp [add_req, add_req_go, h]
  · intro e0 h0 h1
    simp [add_req, add_req_go, h0, h1]
  · intro e0 e1 h0 h1
    simp [add_req, add_req_go, h0, h1]

theorem add_req_bounded_retry_witness :
    add_req (fun i => 100 + i) (fun _ _ => (Except.error 7 : Except Nat Unit)) "k"
      = ([EtcdRequest.put (limitKey "k" 100) [1],
          EtcdRequest.put (limitKey "k" 101) [1]],
         .error (.etcd 7)) := by
  have h := (add_req_bounded_retry Nat (fun i => 100 + i)
    (fun _ _ => (Except.error 7 : Except Nat Unit)) "k").2.2 7 7 rfl rfl
  simpa using h

/-! # Retry policy (`src/repo/policy.rs`) -/

/-- `RandomAttempts`: the bounded fixed-delay retry policy. -/
structure RandomAttempts where
  attempts : Nat
deriving DecidableEq

/-- `Policy::retry` for `RandomAttempts`: no retry after a success; no retry with an
exhausted budget; otherwise a 100 ms sleep followed by the policy with the budget
decremented by one. -/
def RandomAttempts.retry (p : RandomAttempts) (result : Except ε ρ) :
    Option (Nat × RandomAttempts) :=
  match result with
  | .ok _ => none
  | .error _ => if p.attempts = 0 then none else some (100, ⟨p.attempts - 1⟩)

/-- Model of the `tower::retry::Retry` driver around the policy: call the service,
consult `RandomAttempts.retry`, stop when it returns `none`, otherwise recurse with
the successor policy.  Returns the number of service calls made and the final result.
(The budget-zero equation returns after the single call, exactly as `retry` decides:
with an empty budget `retry` returns `none` for every result.) -/
def retryDriveGo (backend : Nat → Except ε ρ) : Nat → Nat → Nat × Except ε ρ
  | 0, i => (1, backend i)
  | b + 1, i =>
    match RandomAttempts.retry ⟨b + 1⟩ (backend i) with
    | none => (1, backend i)
    | some _ =>
      let r := retryDriveGo backend b (i + 1)
      (r.1 + 1, r.2)

/-- Drive the retried service from attempt 0 with the policy's full budget. -/
def retryDrive (backend : Nat → Except ε ρ) (p : RandomAttempts) : Nat × Except ε ρ :=
  retryDriveGo backend p.attempts 0

theorem retryDriveGo_success (ε ρ : Type) (backend : Nat → Except ε ρ) (v : ρ) :
    ∀ (K a i : Nat), K ≤ a →
      (∀ j, j < K → ∃ e, backend (i + j) = .error e) →
      backend (i + K) = .ok v →
      retryDriveGo backend a i = (K + 1, .ok v) := by
  intro K
  induction K with
  | zero =>
    intro a i ha hf hok
    simp only [Nat.add_zero] at hok
    cases a with
    | zero => simp [retryDriveGo, hok]
    | succ b => simp [retryDriveGo, hok, RandomAttempts.retry]
  | succ K ih =>
    intro a i ha hf hok
    cases a with
    | zero => omega
    | succ b =>
      obtain ⟨e, he⟩ := hf 0 (by omega)
      simp only [Nat.add_zero] at he
      have hrec := ih b (i + 1) (by omega)
        (fun j hj => by
          obtain ⟨e2, he2⟩ := hf (j + 1) (by omega)
          refine ⟨e2, ?_⟩
          have hidx : i + 1 + j = i + (j + 1) := by omega
          rw [hidx]
          exact he2)
        (by
          have hidx : i + 1 + K = i + (K + 1) := by omega
          rw [hidx]
          exact hok)
      simp only [retryDriveGo, he, RandomAttempts.retry, hrec]
      simp

theorem retryDriveGo_fail (ε ρ : Type) (backend : Nat → Except ε ρ)
    (hf : ∀ j, ∃ e, backend j = .error e) :
    ∀ (a i : Nat), (retryDriveGo backend a i).1 = a + 1 ∧
      ∃ e, (retryDriveGo backend a i).2 = .error e := by
  intro a
  induction a with
  | zero =>
    intro i
    obtain ⟨e, he⟩ := hf i
    exact ⟨rfl, ⟨e, by simp [retryDriveGo, he]⟩⟩
  | succ b ih =>
    intro i
    obtain ⟨e, he⟩ := hf i
    obtain ⟨g1, g2⟩ := ih (i + 1)
    constructor
    · simp only [retryDriveGo, he, RandomAttempts.retry]
      simp only [Nat.succ_ne_zero, if_false]
      simp [g1]
    · simp only [retryDriveGo, he, RandomAttempts.retry]
      simp only [Nat.succ_ne_zero, if_false]
      simpa using g2

/-- Claim C7 (amended as the counterexample forces: the constructor argument bounds
the number of retries, so exhaustion takes `attempts + 1` total calls): the policy
never retries after a success; each permitted retry carries the fixed 100 ms delay
and decrements the budget by exactly one; against a backend failing the first
K ≤ `attempts` calls and then succeeding, the driven service succeeds after exactly
K + 1 calls; against a backend that always fails, it fails after exactly
`attempts + 1` calls. -/
theorem retry_policy_attempts (ε ρ : Type) :
    (∀ (p : RandomAttempts) (x : ρ),
      RandomAttempts.retry p (Except.ok x : Except ε ρ) = none) ∧
    (∀ (p p2 : RandomAttempts) (d : Nat) (r : Except ε ρ),
      RandomAttempts.retry p r = some (d, p2) →
      d = 100 ∧ p2.attempts + 1 = p.attempts ∧ ∃ e, r = .error e) ∧
    (∀ (a K : Nat) (backend : Nat → Except ε ρ) (v : ρ), K ≤ a →
      (∀ j, j < K → ∃ e, backend j = .error e) → backend K = .ok v →
      retryDrive backend ⟨a⟩ = (K + 1, .ok v)) ∧
    (∀ (a : Nat) (backend : Nat → Except ε ρ),
      (∀ j, ∃ e, backend j = .error e) →
      (retryDrive backend ⟨a⟩).1 = a + 1 ∧
      ∃ e, (retryDrive backend ⟨a⟩).2 = .error e) := by
  refine ⟨?_, ?_, ?_, ?_⟩
  · intro p x
    rfl
  · intro p p2 d r h
    cases r with
    | ok x => simp [RandomAttempts.retry] at h
    | error e =>
      simp only [RandomAttempts.retry] at h
      by_cases hz : p.attempts = 0
      · simp [hz] at h
      · rw [if_neg hz] at h
        obtain ⟨h1, h2⟩ := Prod.mk.injEq .. ▸ Option.some.inj h
        refine ⟨h1.symm, ?_, ⟨e, rfl⟩⟩
        rw [← h2]
        show p.attempts - 1 + 1 = p.attempts
        omega
  · intro a K backend v hK hf hok
    have := retryDriveGo_success ε ρ backend v K a 0 hK
      (fun j hj => by simpa using hf j hj) (by simpa using hok)
    simpa [retryDrive] using this
  · intro a backend hf
    have := retryDriveGo_fail ε ρ backend hf a 0
    simpa [retryDrive] using this

theorem retry_policy_attempts_witness :
    retryDrive (fun i => if i < 2 then (Except.error 9 : Except Nat Nat) else .ok 5) ⟨3⟩
      = (3, .ok 5) := by
  have h := (retry_policy_attempts Nat Nat).2.2.1 3 2
    (fun i => if i < 2 then (Except.error 9 : Except Nat Nat) else .ok 5) 5
    (by omega)
    (fun j hj => by
      have hj2 : j = 0 ∨ j = 1 := by omega
      rcases hj2 with rfl | rfl
      · exact ⟨9, rfl⟩
      · exact ⟨9, rfl⟩)
    (by rfl)
  simpa using h

/-- Claim C7 counterexample: a policy constructed with attempt budget 1 against an
always-failing backend makes 2 service calls, not 1 — exhaustion happens after
`max_attempts + 1` total attempts, refuting "fails after exactly `max_attempts`
attempts". -/
theorem retry_policy_attempts_counterexample :
    (retryDrive (fun _ => (Except.error 0 : Except Nat Nat)) ⟨1⟩).1 = 2 ∧
    (2 : Nat) ≠ 1 ∧
    (retryDrive (fun _ => (Except.error 0 : Except Nat Nat)) ⟨1⟩).2
      = Except.error 0 := by
  refine ⟨by rfl, by decide, by rfl⟩

/-! # `OwnedMutex` (`src/limiter.rs`)

The shared state of the owned async mutex: the `Arc<Mutex<Option<T>>>` cell, the
number of available semaphore permits, and the number of outstanding guards. -/

/-- Shared state of `OwnedMutex<T>` and its guards. -/
structure OwnedMutexState (T : Type) where
  cell : Option T
  permits : Nat
  guards : Nat
deriving DecidableEq

/-- Outcome of one `poll_lock` call. -/
inductive LockOutcome (T : Type) where
  | pending
  | acquired (data : T)
  | panicked
deriving DecidableEq

/-- `OwnedMutex::new`: one permit on the semaphore, the value stored in the cell. -/
def OwnedMutex.new {T : Type} (v : T) : OwnedMutexState T :=
  { cell := some v, permits := 1, guards := 0 }

/-- `OwnedMutex::poll_lock`: pend while no permit is available; with a permit, take
the value out of the cell (`panicked` models the
`expect("cannot be empty if we have permit")`) and hand out a guard owning it. -/
def poll_lock {T : Type} (s : OwnedMutexState T) : LockOutcome T × OwnedMutexState T :=
  match s.permits with
  | 0 => (.pending, s)
  | p + 1 =>
    match s.cell with
    | none => (.panicked, s)
    | some v => (.acquired v, { cell := none, permits := p, guards := s.guards + 1 })

/-- `Drop for OwnedMutexGuard`: put the owned value back into the cell and release
the permit (the `OwnedSemaphorePermit` is dropped with the guard). -/
def dropGuard {T : Type} (s : OwnedMutexState T) (d : T) : OwnedMutexState T :=
  { cell := some d, permits := s.permits + 1, guards := s.guards - 1 }

/-- The exclusive-access invariant: either exactly one guard is outstanding, the
permit is held and the cell is empty, or no guard is outstanding, one permit is
available and the cell is full. -/
def MutexInv {T : Type} (s : OwnedMutexState T) : Prop :=
  (s.guards = 1 ∧ s.permits = 0 ∧ s.cell.isSome = false) ∨
  (s.guards = 0 ∧ s.permits = 1 ∧ s.cell.isSome = true)

/-- Claim C9: `OwnedMutex` preserves the exclusive-access invariant across every
acquire and release: a fresh mutex satisfies it; `poll_lock` preserves it and never
observes an empty cell (never panics), succeeding exactly when the permit is
available; dropping a guard on any path restores the value into the cell, releases
the permit, re-establishes the invariant, and makes the next `poll_lock` succeed with
the restored value. -/
theorem owned_mutex_invariant (T : Type) :
    (∀ v : T, MutexInv (OwnedMutex.new v)) ∧
    (∀ s : OwnedMutexState T, MutexInv s →
      MutexInv (poll_lock s).2 ∧ (poll_lock s).1 ≠ .panicked ∧
      (s.permits = 1 → ∃ v, s.cell = some v ∧
        poll_lock s = (.acquired v, { cell := none, permits := 0, guards := s.guards + 1 }))) ∧
    (∀ (s : OwnedMutexState T) (d : T), MutexInv s → s.guards = 1 →
      MutexInv (dropGuard s d) ∧ (dropGuard s d).cell = some d ∧
      (dropGuard s d).permits = s.permits + 1 ∧
      poll_lock (dropGuard s d)
        = (.acquired d, { cell := none, permits := s.permits, guards := s.guards })) := by
  refine ⟨?_, ?_, ?_⟩
  · intro v
    right
    exact ⟨rfl, rfl, rfl⟩
  · intro s hs
    rcases hs with ⟨h1, h2, h3⟩ | ⟨h1, h2, h3⟩
    · rcases s with ⟨cell, permits, guards⟩
      simp only at h1 h2 h3
      subst h1; subst h2
      refine ⟨Or.inl ⟨rfl, rfl, h3⟩, ?_, ?_⟩
      · simp [poll_lock]
      · intro hp
        simp at hp
    · rcases s with ⟨cell, permits, guards⟩
      simp only at h1 h2 h3
      subst h1; subst h2
      rcases cell with _ | v
      · simp at h3
      · refine ⟨Or.inl ⟨rfl, rfl, rfl⟩, ?_, ?_⟩
        · simp [poll_lock]
        · intro hp
          exact ⟨v, rfl, rfl⟩
  · intro s d hs hg
    rcases hs with ⟨h1, h2, h3⟩ | ⟨h1, h2, h3⟩
    · rcases s with ⟨cell, permits, guards⟩
      simp only at h1 h2 h3
      subst h1; subst h2
      refine ⟨Or.inr ⟨rfl, rfl, rfl⟩, rfl, rfl, rfl⟩
    · rcases s with ⟨cell, permits, guards⟩
      simp only at h1 h2 h3 hg
      omega

theorem owned_mutex_invariant_witness :
    MutexInv (OwnedMutex.new (5 : Nat)) ∧
    poll_lock (dropGuard (⟨none, 0, 1⟩ : OwnedMutexState Nat) 8)
      = (.acquired 8, ⟨none, 0, 1⟩) := by
  constructor
  · exact (owned_mutex_invariant Nat).1 5
  · have h := (owned_mutex_invariant Nat).2.2 ⟨none, 0, 1⟩ 8
      (Or.inl ⟨rfl, rfl, rfl⟩) rfl
    exact h.2.2.2

end Acmon
